import Mathlib

/-!
# Verification of the etcdv2 provider's role/user reconciliation logic

Shallow embedding of the role, user and key-value handlers of
terraform-provider-etcdv2.  The remote etcd store is abstracted as an
oracle: each remote call either succeeds or fails, and read handlers
receive the store's answer as an explicit Except value.
-/

/-- One declared permission, mirroring permissionResourceModel
(fields KeyPath, Read, Write) of the role resource. -/
structure permissionResourceModel where
  keyPath : String
  read : Bool
  write : Bool
deriving DecidableEq

/-- The etcd client permission classes (clientv2.ReadPermission,
WritePermission, ReadWritePermission). -/
inductive PermissionType where
  | readPermission
  | writePermission
  | readWritePermission
deriving DecidableEq

/-- The shared classification chain appearing verbatim in
roleResource.Create and twice in roleResource.Update:
read and write gives ReadWrite, read alone Read, write alone Write,
neither is skipped (continue). -/
def classifyPermission (read write : Bool) : Option PermissionType :=
  if read && write then some .readWritePermission
  else if read then some .readPermission
  else if write then some .writePermission
  else none

/-- A remote role-permission call: GrantRoleKV or RevokeRoleKV on one
key path with one permission class. -/
inductive RoleOp where
  | grantRoleKV (path : String) (perm : PermissionType)
  | revokeRoleKV (path : String) (perm : PermissionType)
deriving DecidableEq

def RoleOp.path : RoleOp → String
  | .grantRoleKV p _ => p
  | .revokeRoleKV p _ => p

def RoleOp.isGrant : RoleOp → Bool
  | .grantRoleKV _ _ => true
  | .revokeRoleKV _ _ => false

/-- The grant loop of roleResource.Create and roleResource.Update:
classify each entry, skip no-op entries, issue GrantRoleKV, and on the
first failing call stop and report the failing entry's key path (the
Go handler formats the path into the error diagnostic and returns).
The oracle ok says which remote calls succeed. -/
def grantLoop (perms : List permissionResourceModel) (ok : RoleOp → Bool) :
    List RoleOp × Option String :=
  match perms with
  | [] => ([], none)
  | perm :: rest =>
    match classifyPermission perm.read perm.write with
    | none => grantLoop rest ok
    | some t =>
      if ok (RoleOp.grantRoleKV perm.keyPath t) then
        (RoleOp.grantRoleKV perm.keyPath t :: (grantLoop rest ok).1,
         (grantLoop rest ok).2)
      else ([RoleOp.grantRoleKV perm.keyPath t], some perm.keyPath)

/-- The revoke loop of roleResource.Update: same structure as the grant
loop but issuing RevokeRoleKV. -/
def revokeLoop (perms : List permissionResourceModel) (ok : RoleOp → Bool) :
    List RoleOp × Option String :=
  match perms with
  | [] => ([], none)
  | perm :: rest =>
    match classifyPermission perm.read perm.write with
    | none => revokeLoop rest ok
    | some t =>
      if ok (RoleOp.revokeRoleKV perm.keyPath t) then
        (RoleOp.revokeRoleKV perm.keyPath t :: (revokeLoop rest ok).1,
         (revokeLoop rest ok).2)
      else ([RoleOp.revokeRoleKV perm.keyPath t], some perm.keyPath)

/-- The full grant call list of a permission list when every call
succeeds: one GrantRoleKV per entry whose classification is not a
no-op, in list order. -/
def grantOps (perms : List permissionResourceModel) : List RoleOp :=
  perms.filterMap fun perm =>
    (classifyPermission perm.read perm.write).map (RoleOp.grantRoleKV perm.keyPath)

/-- The full revoke call list of a permission list when every call
succeeds. -/
def revokeOps (perms : List permissionResourceModel) : List RoleOp :=
  perms.filterMap fun perm =>
    (classifyPermission perm.read perm.write).map (RoleOp.revokeRoleKV perm.keyPath)

/-- Which phase of an update produced an error (the Go code reports
distinct diagnostics for the revoke loop and the grant loop). -/
inductive Phase where
  | revokePhase
  | grantPhase
deriving DecidableEq

/-- Error outcome of roleResource.Create: the initial AddRole call can
fail, or one of the grant calls can fail (reporting its key path). -/
inductive CreateError where
  | addRoleFailed
  | grantFailed (path : String)
deriving DecidableEq

namespace roleResource

/-- roleResource.Create: AddRole, then the grant loop over the plan's
permissions.  Returns the issued Grant calls and the error, if any.
The Go code guards the loop with a length check, which is equivalent to
running the loop on the (possibly empty) list. -/
def Create (plan : List permissionResourceModel) (addRoleOk : Bool)
    (ok : RoleOp → Bool) : List RoleOp × Option CreateError :=
  if addRoleOk then
    ((grantLoop plan ok).1, (grantLoop plan ok).2.map CreateError.grantFailed)
  else ([], some .addRoleFailed)

/-- roleResource.Update: revoke every classified permission of the
prior state, then, if no revoke failed, grant every classified
permission of the plan.  The first failure aborts and is tagged with
its phase and key path. -/
def Update (statePerms planPerms : List permissionResourceModel)
    (ok : RoleOp → Bool) : List RoleOp × Option (Phase × String) :=
  match (revokeLoop statePerms ok).2 with
  | some p => ((revokeLoop statePerms ok).1, some (.revokePhase, p))
  | none =>
    ((revokeLoop statePerms ok).1 ++ (grantLoop planPerms ok).1,
     (grantLoop planPerms ok).2.map fun p => (.grantPhase, p))

end roleResource

/-- The store-native permission shape returned by GetRole:
role.Permissions.KV.Read and role.Permissions.KV.Write, two ordered
lists of key paths. -/
structure StoreRolePermissions where
  readPaths : List String
  writePaths : List String
deriving DecidableEq

/-- One step of the write-path loop in roleResource.Read: scan the
permissions built so far for the first entry with this key path and
set its Write flag, otherwise append a write-only entry. -/
def applyWrite (perms : List permissionResourceModel) (p : String) :
    List permissionResourceModel :=
  match perms with
  | [] => [{ keyPath := p, read := false, write := true }]
  | e :: rest =>
    if e.keyPath == p then { e with write := true } :: rest
    else e :: applyWrite rest p

/-- The permission rebuild in roleResource.Read: one read-only entry
per path of the store's read list, then the write list is merged in
via applyWrite. -/
def decodePermissions (s : StoreRolePermissions) : List permissionResourceModel :=
  s.writePaths.foldl applyWrite
    (s.readPaths.map fun p => { keyPath := p, read := true, write := false })

/-- An error answer from the store on a read: the entity is missing,
or the call failed for some other reason. -/
inductive StoreErr where
  | notFound
  | failure (msg : String)
deriving DecidableEq

/-- roleResource.Read: fetch the role; any GetRole error (including a
missing role) is turned into an error diagnostic naming the role;
otherwise the permissions are rebuilt from the store's two lists. -/
def roleResource.Read (name : String)
    (store : Except StoreErr StoreRolePermissions) :
    Except (String × StoreErr) (List permissionResourceModel) :=
  match store with
  | .error e => .error (name, e)
  | .ok role => .ok (decodePermissions role)

/-- Modelled from the spec: the store-native dual-list image of a
permission set (spec section 4.1, Encode).  The repository itself never
builds this value; the etcd store materialises it as the effect of the
grant calls, with the classification taken from the grant loops: a
ReadWrite grant records the path in both lists, a Read grant in the
read list, a Write grant in the write list, and a no-op entry nowhere. -/
def encodePermissions (perms : List permissionResourceModel) : StoreRolePermissions :=
  { readPaths := (perms.filter fun e =>
      match classifyPermission e.read e.write with
      | some .readPermission => true
      | some .readWritePermission => true
      | _ => false).map fun e => e.keyPath
    writePaths := (perms.filter fun e =>
      match classifyPermission e.read e.write with
      | some .writePermission => true
      | some .readWritePermission => true
      | _ => false).map fun e => e.keyPath }

/-- The user resource model: username, password, declared role list. -/
structure userResourceModel where
  username : String
  password : String
  roles : List String
deriving DecidableEq

/-- userResource.Read: fetch the user; on success the roles are
replaced by exactly what the store reports while every other field of
the prior state, in particular the password, is kept. -/
def userResource.Read (state : userResourceModel)
    (store : Except StoreErr (List String)) :
    Except (String × StoreErr) userResourceModel :=
  match store with
  | .error e => .error (state.username, e)
  | .ok storeRoles => .ok { state with roles := storeRoles }

/-- A remote user-directory call issued by the user handlers. -/
inductive UserCall where
  | changePassword (password : String)
  | grantUser (roles : List String)
  | revokeUser (roles : List String)
deriving DecidableEq

/-- The role-granting block shared by userResource.Create and
userResource.Update: when the declared role list is non-empty, drop
empty names, and when names remain issue a single GrantUser with
exactly those names; on failure report the username. -/
def grantUserStep (username : String) (declared : List String)
    (ok : UserCall → Bool) : List UserCall × Option String :=
  if declared.length > 0 then
    if (declared.filter fun r => r != "").length > 0 then
      if ok (UserCall.grantUser (declared.filter fun r => r != "")) then
        ([UserCall.grantUser (declared.filter fun r => r != "")], none)
      else ([UserCall.grantUser (declared.filter fun r => r != "")], some username)
    else ([], none)
  else ([], none)

/-- The role-revoking block of userResource.Update: same shape as the
grant block, issuing a single RevokeUser over the non-empty names of
the prior state's role list. -/
def revokeUserStep (username : String) (declared : List String)
    (ok : UserCall → Bool) : List UserCall × Option String :=
  if declared.length > 0 then
    if (declared.filter fun r => r != "").length > 0 then
      if ok (UserCall.revokeUser (declared.filter fun r => r != "")) then
        ([UserCall.revokeUser (declared.filter fun r => r != "")], none)
      else ([UserCall.revokeUser (declared.filter fun r => r != "")], some username)
    else ([], none)
  else ([], none)

/-- The password block of userResource.Update: ChangePassword only
when the planned password differs from the prior one. -/
def changePasswordStep (username oldPassword newPassword : String)
    (ok : UserCall → Bool) : List UserCall × Option String :=
  if newPassword != oldPassword then
    if ok (UserCall.changePassword newPassword) then
      ([UserCall.changePassword newPassword], none)
    else ([UserCall.changePassword newPassword], some username)
  else ([], none)

namespace userResource

/-- userResource.Create: AddUser, then, when the plan's role list is
non-empty, filter out empty role names and issue one GrantUser with
the remaining names; no call at all when nothing remains. -/
def Create (plan : userResourceModel) (addUserOk : Bool)
    (ok : UserCall → Bool) : List UserCall × Option String :=
  if addUserOk then grantUserStep plan.username plan.roles ok
  else ([], some plan.username)

/-- userResource.Update: change the password when it differs from the
prior state, then revoke the prior state's non-empty role names, then
grant the plan's non-empty role names; each block is skipped when its
filtered list is empty, and the first failing call aborts the rest. -/
def Update (state plan : userResourceModel)
    (ok : UserCall → Bool) : List UserCall × Option String :=
  match (changePasswordStep plan.username state.password plan.password ok).2 with
  | some e => ((changePasswordStep plan.username state.password plan.password ok).1, some e)
  | none =>
    match (revokeUserStep plan.username state.roles ok).2 with
    | some e =>
      ((changePasswordStep plan.username state.password plan.password ok).1 ++
        (revokeUserStep plan.username state.roles ok).1, some e)
    | none =>
      ((changePasswordStep plan.username state.password plan.password ok).1 ++
        (revokeUserStep plan.username state.roles ok).1 ++
        (grantUserStep plan.username plan.roles ok).1,
       (grantUserStep plan.username plan.roles ok).2)

end userResource

/-- The key-value resource model (fields Key, Value, ModifiedIndex). -/
structure KeyValueResourceModel where
  key : String
  value : String
  modifiedIndex : Int
deriving DecidableEq

/-- KeyValueResource.Read: fetch the key; any Get error (including a
missing key) is turned into an error diagnostic; otherwise value and
modified index are taken from the store's node. -/
def KeyValueResource.Read (state : KeyValueResourceModel)
    (store : Except StoreErr (String × Int)) :
    Except (String × StoreErr) KeyValueResourceModel :=
  match store with
  | .error e => .error (state.key, e)
  | .ok node => .ok { state with value := node.1, modifiedIndex := node.2 }

/-- The key paths of a permission list, in order. -/
def pathsOf (perms : List permissionResourceModel) : List String :=
  perms.map permissionResourceModel.keyPath

/-- Whether some entry of the list carries this key path (the found
flag of the inner scan in roleResource.Read). -/
def hasPath (perms : List permissionResourceModel) (p : String) : Bool :=
  perms.any fun e => e.keyPath == p

/-- Invariant of the write-merge fold in roleResource.Read: after the
read list R has been loaded and the write paths Wseen have been merged
in, the accumulated permission list has pairwise distinct key paths and
holds exactly one entry per path of R or Wseen, whose flags record in
which of the two lists the path occurs. -/
def DecodeInv (R Wseen : List String) (perms : List permissionResourceModel) : Prop :=
  (pathsOf perms).Nodup ∧
  ∀ e : permissionResourceModel,
    e ∈ perms ↔
      ((e.keyPath ∈ R ∨ e.keyPath ∈ Wseen) ∧
       (e.read = true ↔ e.keyPath ∈ R) ∧
       (e.write = true ↔ e.keyPath ∈ Wseen))

/-! ## Basic lemmas about paths and the write-merge step -/

theorem bool_eq_of_iff {a b : Bool} (h : a = true ↔ b = true) : a = b := by
  cases a <;> cases b <;> simp_all

theorem mem_pathsOf {p : String} {perms : List permissionResourceModel} :
    p ∈ pathsOf perms ↔ ∃ e ∈ perms, e.keyPath = p := by
  simp [pathsOf, List.mem_map]

theorem pathsOf_append (l1 l2 : List permissionResourceModel) :
    pathsOf (l1 ++ l2) = pathsOf l1 ++ pathsOf l2 := by
  simp [pathsOf]

theorem hasPath_true {perms : List permissionResourceModel} {p : String} :
    hasPath perms p = true ↔ p ∈ pathsOf perms := by
  simp [hasPath, List.any_eq_true, mem_pathsOf]

theorem hasPath_false {perms : List permissionResourceModel} {p : String} :
    hasPath perms p = false ↔ p ∉ pathsOf perms := by
  rw [Bool.eq_false_iff, Ne, hasPath_true]

theorem applyWrite_of_not_found {perms : List permissionResourceModel} {p : String}
    (h : hasPath perms p = false) :
    applyWrite perms p = perms ++ [{ keyPath := p, read := false, write := true }] := by
  induction perms with
  | nil => rfl
  | cons e rest ih =>
    simp only [hasPath, List.any_cons, Bool.or_eq_false_iff] at h
    obtain ⟨h1, h2⟩ := h
    have h2' : hasPath rest p = false := h2
    simp [applyWrite, h1, ih h2']

theorem applyWrite_of_found {perms : List permissionResourceModel} {p : String}
    (h : hasPath perms p = true) :
    ∃ l1 e l2, perms = l1 ++ e :: l2 ∧ e.keyPath = p ∧ hasPath l1 p = false ∧
      applyWrite perms p = l1 ++ ({ e with write := true }) :: l2 := by
  induction perms with
  | nil => simp [hasPath] at h
  | cons e rest ih =>
    by_cases he : e.keyPath = p
    · exact ⟨[], e, rest, by simp, he, rfl, by simp [applyWrite, he]⟩
    · have h2 : hasPath rest p = true := by
        simp only [hasPath, List.any_cons, Bool.or_eq_true] at h
        rcases h with h | h
        · exact absurd (by simpa using h) he
        · exact h
      obtain ⟨l1, e0, l2, hsplit, he0, hl1, happ⟩ := ih h2
      refine ⟨e :: l1, e0, l2, by simp [hsplit], he0, ?_, ?_⟩
      · simp only [hasPath, List.any_cons, Bool.or_eq_false_iff]
        exact ⟨by simpa using he, hl1⟩
      · simp [applyWrite, he, happ]

/-! ## The decode invariant -/

theorem decodeInv_step {R Wseen : List String} {perms : List permissionResourceModel}
    {p : String} (inv : DecodeInv R Wseen perms) :
    DecodeInv R (Wseen ++ [p]) (applyWrite perms p) := by
  obtain ⟨hnd, hmem⟩ := inv
  by_cases hp : hasPath perms p = true
  · obtain ⟨l1, e0, l2, hsplit, he0, hl1, happ⟩ := applyWrite_of_found hp
    have he0mem : e0 ∈ perms := by rw [hsplit]; exact List.mem_append_right _ (List.mem_cons_self _ _)
    obtain ⟨hdisj, hre, hwr⟩ := (hmem e0).mp he0mem
    have hpl1 : p ∉ pathsOf l1 := hasPath_false.mp hl1
    have hpaths : pathsOf perms = pathsOf l1 ++ p :: pathsOf l2 := by
      rw [hsplit, pathsOf_append]
      simp [pathsOf, he0]
    have hpl2 : p ∉ pathsOf l2 := by
      rw [hpaths] at hnd
      exact (List.nodup_cons.mp ((List.nodup_append.mp hnd).2.1)).1
    rw [happ]
    constructor
    · have heq : pathsOf (l1 ++ ({ e0 with write := true }) :: l2) = pathsOf l1 ++ p :: pathsOf l2 := by
        rw [pathsOf_append]; simp [pathsOf, he0]
      rw [heq]
      rw [hpaths] at hnd
      exact hnd
    · intro e
      constructor
      · intro hein
        rcases List.mem_append.mp hein with h1 | h12
        · have heperms : e ∈ perms := by rw [hsplit]; exact List.mem_append_left _ h1
          have hne : e.keyPath ≠ p := fun hq => hpl1 (mem_pathsOf.mpr ⟨e, h1, hq⟩)
          obtain ⟨hd, hr, hw⟩ := (hmem e).mp heperms
          have hWiff : e.keyPath ∈ Wseen ++ [p] ↔ e.keyPath ∈ Wseen := by
            simp [List.mem_append, hne]
          exact ⟨hd.imp id (List.mem_append_left _), hr, hw.trans hWiff.symm⟩
        · rcases List.mem_cons.mp h12 with he' | h2
          · have hkey : e.keyPath = p := by rw [he']; exact he0
            have hpin : p ∈ Wseen ++ [p] := List.mem_append_right _ (List.mem_singleton.mpr rfl)
            refine ⟨Or.inr (hkey ▸ hpin), ?_, ?_⟩
            · have hrd : e.read = e0.read := by rw [he']
              rw [hrd, hkey, ← he0]
              exact hre
            · have hwt : e.write = true := by rw [he']
              rw [hkey]
              exact iff_of_true hwt hpin
          · have heperms : e ∈ perms := by
              rw [hsplit]; exact List.mem_append_right _ (List.mem_cons_of_mem _ h2)
            have hne : e.keyPath ≠ p := fun hq => hpl2 (mem_pathsOf.mpr ⟨e, h2, hq⟩)
            obtain ⟨hd, hr, hw⟩ := (hmem e).mp heperms
            have hWiff : e.keyPath ∈ Wseen ++ [p] ↔ e.keyPath ∈ Wseen := by
              simp [List.mem_append, hne]
            exact ⟨hd.imp id (List.mem_append_left _), hr, hw.trans hWiff.symm⟩
      · rintro ⟨hd, hr, hw⟩
        by_cases hep : e.keyPath = p
        · have hpin : p ∈ Wseen ++ [p] := List.mem_append_right _ (List.mem_singleton.mpr rfl)
          have hwt : e.write = true := hw.mpr (hep ▸ hpin)
          have hrt : e.read = e0.read := by
            apply bool_eq_of_iff
            have hra : e0.keyPath ∈ R ↔ e0.read = true := hre.symm
            rw [hr, hep, ← he0]
            exact hra
          have hee : e = { e0 with write := true } := by
            cases e
            cases e0
            simp_all
          rw [hee]
          exact List.mem_append_right _ (List.mem_cons_self _ _)
        · have hWiff : e.keyPath ∈ Wseen ++ [p] ↔ e.keyPath ∈ Wseen := by
            simp [List.mem_append, hep]
          have heperms : e ∈ perms := (hmem e).mpr ⟨hd.imp id hWiff.mp, hr, hw.trans hWiff⟩
          rw [hsplit] at heperms
          rcases List.mem_append.mp heperms with h1 | h12
          · exact List.mem_append_left _ h1
          · rcases List.mem_cons.mp h12 with he' | h2
            · exact absurd (by rw [he']; exact he0) hep
            · exact List.mem_append_right _ (List.mem_cons_of_mem _ h2)
  · have hp' : hasPath perms p = false := by
      cases h : hasPath perms p
      · rfl
      · exact absurd h hp
    rw [applyWrite_of_not_found hp']
    have hpnot : p ∉ pathsOf perms := hasPath_false.mp hp'
    have hkey : p ∈ R ∨ p ∈ Wseen → False := by
      intro hd
      have hentry : ({ keyPath := p, read := decide (p ∈ R), write := decide (p ∈ Wseen) } :
          permissionResourceModel) ∈ perms :=
        (hmem _).mpr ⟨hd, by simp, by simp⟩
      exact hpnot (mem_pathsOf.mpr ⟨_, hentry, rfl⟩)
    have hpRn : p ∉ R := fun h => hkey (Or.inl h)
    have hpWn : p ∉ Wseen := fun h => hkey (Or.inr h)
    constructor
    · have heq : pathsOf (perms ++ [{ keyPath := p, read := false, write := true }]) =
          pathsOf perms ++ [p] := by
        rw [pathsOf_append]; rfl
      rw [heq, List.nodup_append]
      refine ⟨hnd, List.nodup_singleton p, ?_⟩
      intro a ha hb
      rw [List.mem_singleton] at hb
      subst hb
      exact hpnot ha
    · intro e
      constructor
      · intro hein
        rcases List.mem_append.mp hein with h1 | h2
        · obtain ⟨hd, hr, hw⟩ := (hmem e).mp h1
          have hne : e.keyPath ≠ p := fun hq => hpnot (mem_pathsOf.mpr ⟨e, h1, hq⟩)
          have hWiff : e.keyPath ∈ Wseen ++ [p] ↔ e.keyPath ∈ Wseen := by
            simp [List.mem_append, hne]
          exact ⟨hd.imp id (List.mem_append_left _), hr, hw.trans hWiff.symm⟩
        · rw [List.mem_singleton] at h2
          subst h2
          have hpin : p ∈ Wseen ++ [p] := List.mem_append_right _ (List.mem_singleton.mpr rfl)
          exact ⟨Or.inr hpin, iff_of_false (by simp) hpRn, iff_of_true rfl hpin⟩
      · rintro ⟨hd, hr, hw⟩
        by_cases hep : e.keyPath = p
        · have hpin : p ∈ Wseen ++ [p] := List.mem_append_right _ (List.mem_singleton.mpr rfl)
          have hwt : e.write = true := hw.mpr (hep ▸ hpin)
          have hrf : e.read = false := by
            cases hre : e.read
            · rfl
            · exact absurd (hep ▸ hr.mp hre) hpRn
          have hee : e = { keyPath := p, read := false, write := true } := by
            cases e
            simp_all
          rw [hee]
          exact List.mem_append_right _ (List.mem_singleton.mpr rfl)
        · have hWiff : e.keyPath ∈ Wseen ++ [p] ↔ e.keyPath ∈ Wseen := by
            simp [List.mem_append, hep]
          exact List.mem_append_left _ ((hmem e).mpr ⟨hd.imp id hWiff.mp, hr, hw.trans hWiff⟩)

theorem decodeInv_init {R : List String} (h : R.Nodup) :
    DecodeInv R [] (R.map fun p => { keyPath := p, read := true, write := false }) := by
  constructor
  · have heq : pathsOf (R.map fun p =>
        ({ keyPath := p, read := true, write := false } : permissionResourceModel)) = R := by
      simp [pathsOf, List.map_map]
      exact List.map_id R
    rw [heq]
    exact h
  · intro e
    simp only [List.mem_map]
    constructor
    · rintro ⟨p, hpR, rfl⟩
      exact ⟨Or.inl hpR, iff_of_true rfl hpR, iff_of_false (by simp) (List.not_mem_nil _)⟩
    · rintro ⟨hd, hr, hw⟩
      have hdR : e.keyPath ∈ R := by
        rcases hd with h1 | h1
        · exact h1
        · exact absurd h1 (List.not_mem_nil _)
      have hret : e.read = true := hr.mpr hdR
      have hwf : e.write = false := by
        cases hwe : e.write
        · rfl
        · exact absurd (hw.mp hwe) (List.not_mem_nil _)
      refine ⟨e.keyPath, hdR, ?_⟩
      cases e
      simp_all

theorem decodeInv_foldl {R : List String} :
    ∀ (W Wseen : List String) (perms : List permissionResourceModel),
      DecodeInv R Wseen perms → DecodeInv R (Wseen ++ W) (W.foldl applyWrite perms)
  | [], Wseen, perms, inv => by simpa using inv
  | p :: W, Wseen, perms, inv => by
      have rec := decodeInv_foldl W (Wseen ++ [p]) (applyWrite perms p) (decodeInv_step inv)
      simpa [List.append_assoc] using rec

/-- Full characterisation of the permission rebuild of roleResource.Read:
when the store's read list has no duplicate, the rebuilt list satisfies
the decode invariant over the two store lists. -/
theorem decode_characterization (s : StoreRolePermissions) (h : s.readPaths.Nodup) :
    DecodeInv s.readPaths s.writePaths (decodePermissions s) := by
  have hfold := decodeInv_foldl s.writePaths [] _ (decodeInv_init h)
  simpa [decodePermissions] using hfold

/-! ## Claim C1 -/

/-- Claim C1: decoding a StoreRolePermissions pair in which no path occurs
twice within the read-path list yields exactly one permission entry per
distinct path of either list — the decoded key paths are pairwise
distinct and range over exactly the union of the two lists — and a
path present in both lists yields a single entry with both flags true. -/
theorem decode_one_entry_per_path (s : StoreRolePermissions)
    (h : s.readPaths.Nodup) :
    (pathsOf (decodePermissions s)).Nodup ∧
    (∀ p : String, p ∈ pathsOf (decodePermissions s) ↔ p ∈ s.readPaths ∨ p ∈ s.writePaths) ∧
    (∀ e ∈ decodePermissions s,
      (e.read = true ↔ e.keyPath ∈ s.readPaths) ∧ (e.write = true ↔ e.keyPath ∈ s.writePaths)) ∧
    (∀ e ∈ decodePermissions s, e.keyPath ∈ s.readPaths → e.keyPath ∈ s.writePaths →
      e.read = true ∧ e.write = true) := by
  obtain ⟨hnd, hmem⟩ := decode_characterization s h
  refine ⟨hnd, ?_, ?_, ?_⟩
  · intro q
    constructor
    · intro hq
      obtain ⟨e, he, rfl⟩ := mem_pathsOf.mp hq
      exact ((hmem e).mp he).1
    · intro hd
      have hentry :
          ({ keyPath := q, read := decide (q ∈ s.readPaths), write := decide (q ∈ s.writePaths) } :
            permissionResourceModel) ∈ decodePermissions s :=
        (hmem _).mpr ⟨hd, by simp, by simp⟩
      exact mem_pathsOf.mpr ⟨_, hentry, rfl⟩
  · intro e he
    exact ⟨((hmem e).mp he).2.1, ((hmem e).mp he).2.2⟩
  · intro e he hr hw
    exact ⟨((hmem e).mp he).2.1.mpr hr, ((hmem e).mp he).2.2.mpr hw⟩

theorem decode_one_entry_per_path_witness :
    (pathsOf (decodePermissions { readPaths := ["/a"], writePaths := ["/a"] })).Nodup :=
  (decode_one_entry_per_path { readPaths := ["/a"], writePaths := ["/a"] } (by decide)).1

/-! ## Claim C2 -/

theorem readGranted_eq (r w : Bool) :
    (match classifyPermission r w with
     | some .readPermission => true
     | some .readWritePermission => true
     | _ => false) = r := by
  cases r <;> cases w <;> rfl

theorem writeGranted_eq (r w : Bool) :
    (match classifyPermission r w with
     | some .writePermission => true
     | some .readWritePermission => true
     | _ => false) = w := by
  cases r <;> cases w <;> rfl

theorem encodePermissions_eq (S : List permissionResourceModel) :
    encodePermissions S =
      { readPaths := (S.filter fun e => e.read).map fun e => e.keyPath,
        writePaths := (S.filter fun e => e.write).map fun e => e.keyPath } := by
  have h1 : (S.filter fun e =>
      match classifyPermission e.read e.write with
      | some .readPermission => true
      | some .readWritePermission => true
      | _ => false) = S.filter fun e => e.read :=
    List.filter_congr fun a _ => readGranted_eq a.read a.write
  have h2 : (S.filter fun e =>
      match classifyPermission e.read e.write with
      | some .writePermission => true
      | some .readWritePermission => true
      | _ => false) = S.filter fun e => e.write :=
    List.filter_congr fun a _ => writeGranted_eq a.read a.write
  unfold encodePermissions
  rw [h1, h2]

theorem keyed_entry_unique :
    ∀ {S : List permissionResourceModel}, (pathsOf S).Nodup →
      ∀ {a b : permissionResourceModel}, a ∈ S → b ∈ S → a.keyPath = b.keyPath → a = b := by
  intro S
  induction S with
  | nil => intro _ a b ha; cases ha
  | cons x rest ih =>
    intro hnd a b ha hb hab
    simp only [pathsOf, List.map_cons] at hnd
    have hx : x.keyPath ∉ pathsOf rest := (List.nodup_cons.mp hnd).1
    have hrest : (pathsOf rest).Nodup := (List.nodup_cons.mp hnd).2
    rcases List.mem_cons.mp ha with rfl | ha'
    · rcases List.mem_cons.mp hb with rfl | hb'
      · rfl
      · exact absurd (mem_pathsOf.mpr ⟨b, hb', hab.symm⟩) hx
    · rcases List.mem_cons.mp hb with rfl | hb'
      · exact absurd (mem_pathsOf.mpr ⟨a, ha', hab⟩) hx
      · exact ih hrest ha' hb' hab

/-- Claim C2: for a permission set with pairwise distinct non-empty key paths
and no entry with both flags false, encoding into the store's dual-list
form and decoding back via the role Read merge yields the original set:
membership is preserved in both directions and the decoded paths are
pairwise distinct. -/
theorem encode_decode_roundtrip (S : List permissionResourceModel)
    (hnd : (pathsOf S).Nodup)
    (hne : ∀ e ∈ S, e.keyPath ≠ "")
    (hop : ∀ e ∈ S, e.read = true ∨ e.write = true) :
    (∀ e : permissionResourceModel, e ∈ decodePermissions (encodePermissions S) ↔ e ∈ S) ∧
    (pathsOf (decodePermissions (encodePermissions S))).Nodup := by
  have hsubR : List.Sublist ((S.filter fun e => e.read).map fun e => e.keyPath)
      (S.map fun e => e.keyPath) := (List.filter_sublist S).map _
  have hRnd : ((S.filter fun e => e.read).map fun e => e.keyPath).Nodup := hnd.sublist hsubR
  rw [encodePermissions_eq]
  obtain ⟨hDnd, hDmem⟩ := decode_characterization
    { readPaths := (S.filter fun e => e.read).map fun e => e.keyPath,
      writePaths := (S.filter fun e => e.write).map fun e => e.keyPath } hRnd
  have hRmem : ∀ q : String,
      q ∈ (S.filter fun e => e.read).map (fun e => e.keyPath) ↔
        ∃ a ∈ S, a.read = true ∧ a.keyPath = q := by
    intro q
    simp [List.mem_map, List.mem_filter, and_assoc]
  have hWmem : ∀ q : String,
      q ∈ (S.filter fun e => e.write).map (fun e => e.keyPath) ↔
        ∃ a ∈ S, a.write = true ∧ a.keyPath = q := by
    intro q
    simp [List.mem_map, List.mem_filter, and_assoc]
  have hRiff : ∀ a ∈ S,
      (a.keyPath ∈ (S.filter fun e => e.read).map (fun e => e.keyPath) ↔ a.read = true) := by
    intro a haS
    rw [hRmem]
    constructor
    · rintro ⟨b, hbS, hbr, hbq⟩
      rw [← keyed_entry_unique hnd hbS haS hbq]
      exact hbr
    · intro har
      exact ⟨a, haS, har, rfl⟩
  have hWiff : ∀ a ∈ S,
      (a.keyPath ∈ (S.filter fun e => e.write).map (fun e => e.keyPath) ↔ a.write = true) := by
    intro a haS
    rw [hWmem]
    constructor
    · rintro ⟨b, hbS, hbw, hbq⟩
      rw [← keyed_entry_unique hnd hbS haS hbq]
      exact hbw
    · intro haw
      exact ⟨a, haS, haw, rfl⟩
  refine ⟨?_, hDnd⟩
  intro e
  rw [hDmem e]
  constructor
  · rintro ⟨hd, hr, hw⟩
    have hex : ∃ a ∈ S, a.keyPath = e.keyPath := by
      rcases hd with h | h
      · obtain ⟨a, haS, _, hq⟩ := (hRmem _).mp h
        exact ⟨a, haS, hq⟩
      · obtain ⟨a, haS, _, hq⟩ := (hWmem _).mp h
        exact ⟨a, haS, hq⟩
    obtain ⟨a, haS, haq⟩ := hex
    have hra := hRiff a haS
    have hwa := hWiff a haS
    rw [haq] at hra hwa
    have h1 : e.read = a.read := bool_eq_of_iff (hr.trans hra)
    have h2 : e.write = a.write := bool_eq_of_iff (hw.trans hwa)
    have hee : e = a := by
      cases e
      cases a
      simp_all
    rw [hee]
    exact haS
  · intro heS
    have hra := hRiff e heS
    have hwa := hWiff e heS
    refine ⟨?_, hra.symm, hwa.symm⟩
    rcases hop e heS with h | h
    · exact Or.inl (hra.mpr h)
    · exact Or.inr (hwa.mpr h)

theorem encode_decode_roundtrip_witness :
    ({ keyPath := "/b", read := true, write := true } : permissionResourceModel) ∈
      decodePermissions (encodePermissions
        [{ keyPath := "/a", read := true, write := false },
         { keyPath := "/b", read := true, write := true },
         { keyPath := "/c", read := false, write := true }]) :=
  ((encode_decode_roundtrip
    [{ keyPath := "/a", read := true, write := false },
     { keyPath := "/b", read := true, write := true },
     { keyPath := "/c", read := false, write := true }]
    (by decide) (by decide) (by decide)).1 _).mpr (by decide)

/-! ## Lemmas about the grant and revoke loops -/

theorem grantLoop_allOk (perms : List permissionResourceModel) :
    grantLoop perms (fun _ => true) = (grantOps perms, none) := by
  induction perms with
  | nil => rfl
  | cons e rest ih =>
    cases hc : classifyPermission e.read e.write with
    | none => simp [grantLoop, grantOps, List.filterMap_cons, hc, ih]
    | some t => simp [grantLoop, grantOps, List.filterMap_cons, hc, ih]

theorem revokeLoop_allOk (perms : List permissionResourceModel) :
    revokeLoop perms (fun _ => true) = (revokeOps perms, none) := by
  induction perms with
  | nil => rfl
  | cons e rest ih =>
    cases hc : classifyPermission e.read e.write with
    | none => simp [revokeLoop, revokeOps, List.filterMap_cons, hc, ih]
    | some t => simp [revokeLoop, revokeOps, List.filterMap_cons, hc, ih]

theorem mem_grantLoop_shape (perms : List permissionResourceModel) (ok : RoleOp → Bool) :
    ∀ op ∈ (grantLoop perms ok).1, ∃ q ∈ perms, ∃ t,
      op = RoleOp.grantRoleKV q.keyPath t ∧ classifyPermission q.read q.write = some t := by
  induction perms with
  | nil => intro op h; simp [grantLoop] at h
  | cons e rest ih =>
    intro op h
    cases hc : classifyPermission e.read e.write with
    | none =>
      simp only [grantLoop, hc] at h
      obtain ⟨q, hq, t, ht⟩ := ih op h
      exact ⟨q, List.mem_cons_of_mem _ hq, t, ht⟩
    | some t =>
      simp only [grantLoop, hc] at h
      by_cases hok : ok (RoleOp.grantRoleKV e.keyPath t) = true
      · rw [if_pos hok] at h
        rcases List.mem_cons.mp h with rfl | h2
        · exact ⟨e, List.mem_cons_self _ _, t, rfl, hc⟩
        · obtain ⟨q, hq, t', ht'⟩ := ih op h2
          exact ⟨q, List.mem_cons_of_mem _ hq, t', ht'⟩
      · rw [if_neg hok] at h
        rw [List.mem_singleton] at h
        subst h
        exact ⟨e, List.mem_cons_self _ _, t, rfl, hc⟩

theorem mem_revokeLoop_shape (perms : List permissionResourceModel) (ok : RoleOp → Bool) :
    ∀ op ∈ (revokeLoop perms ok).1, ∃ q ∈ perms, ∃ t,
      op = RoleOp.revokeRoleKV q.keyPath t ∧ classifyPermission q.read q.write = some t := by
  induction perms with
  | nil => intro op h; simp [revokeLoop] at h
  | cons e rest ih =>
    intro op h
    cases hc : classifyPermission e.read e.write with
    | none =>
      simp only [revokeLoop, hc] at h
      obtain ⟨q, hq, t, ht⟩ := ih op h
      exact ⟨q, List.mem_cons_of_mem _ hq, t, ht⟩
    | some t =>
      simp only [revokeLoop, hc] at h
      by_cases hok : ok (RoleOp.revokeRoleKV e.keyPath t) = true
      · rw [if_pos hok] at h
        rcases List.mem_cons.mp h with rfl | h2
        · exact ⟨e, List.mem_cons_self _ _, t, rfl, hc⟩
        · obtain ⟨q, hq, t', ht'⟩ := ih op h2
          exact ⟨q, List.mem_cons_of_mem _ hq, t', ht'⟩
      · rw [if_neg hok] at h
        rw [List.mem_singleton] at h
        subst h
        exact ⟨e, List.mem_cons_self _ _, t, rfl, hc⟩

theorem grantLoop_skip_noop (l2 : List permissionResourceModel)
    (e : permissionResourceModel) (ok : RoleOp → Bool)
    (hc : classifyPermission e.read e.write = none) :
    ∀ l1, grantLoop (l1 ++ e :: l2) ok = grantLoop (l1 ++ l2) ok := by
  intro l1
  induction l1 with
  | nil => simp [grantLoop, hc]
  | cons x tl ih =>
    cases hx : classifyPermission x.read x.write with
    | none => simp only [List.cons_append, grantLoop, hx]; exact ih
    | some t =>
      simp only [List.cons_append, grantLoop, hx, List.append_eq, ih]

theorem revokeLoop_skip_noop (l2 : List permissionResourceModel)
    (e : permissionResourceModel) (ok : RoleOp → Bool)
    (hc : classifyPermission e.read e.write = none) :
    ∀ l1, revokeLoop (l1 ++ e :: l2) ok = revokeLoop (l1 ++ l2) ok := by
  intro l1
  induction l1 with
  | nil => simp [revokeLoop, hc]
  | cons x tl ih =>
    cases hx : classifyPermission x.read x.write with
    | none => simp only [List.cons_append, revokeLoop, hx]; exact ih
    | some t =>
      simp only [List.cons_append, revokeLoop, hx, List.append_eq, ih]

/-! ## Claim C3 -/

/-- Claim C3: the permission class sent to the store is the pure function
classifyPermission of the flag pair — both flags map to ReadWrite,
read only to Read, write only to Write — every issued grant or revoke
call carries the class of its classified entry, and an entry with both
flags false never causes a GrantRoleKV or RevokeRoleKV call: removing
it from the processed list leaves the loops' behaviour unchanged. -/
theorem classification_and_noop_exclusion :
    classifyPermission true true = some PermissionType.readWritePermission ∧
    classifyPermission true false = some PermissionType.readPermission ∧
    classifyPermission false true = some PermissionType.writePermission ∧
    classifyPermission false false = none ∧
    (∀ (perms : List permissionResourceModel) (ok : RoleOp → Bool),
      ∀ op ∈ (grantLoop perms ok).1, ∃ q ∈ perms, ∃ t,
        op = RoleOp.grantRoleKV q.keyPath t ∧ classifyPermission q.read q.write = some t) ∧
    (∀ (perms : List permissionResourceModel) (ok : RoleOp → Bool),
      ∀ op ∈ (revokeLoop perms ok).1, ∃ q ∈ perms, ∃ t,
        op = RoleOp.revokeRoleKV q.keyPath t ∧ classifyPermission q.read q.write = some t) ∧
    (∀ (l1 l2 : List permissionResourceModel) (e : permissionResourceModel) (ok : RoleOp → Bool),
      e.read = false → e.write = false →
      grantLoop (l1 ++ e :: l2) ok = grantLoop (l1 ++ l2) ok ∧
      revokeLoop (l1 ++ e :: l2) ok = revokeLoop (l1 ++ l2) ok) := by
  refine ⟨rfl, rfl, rfl, rfl, mem_grantLoop_shape, mem_revokeLoop_shape, ?_⟩
  intro l1 l2 e ok hr hw
  have hc : classifyPermission e.read e.write = none := by
    rw [hr, hw]; rfl
  exact ⟨grantLoop_skip_noop l2 e ok hc l1, revokeLoop_skip_noop l2 e ok hc l1⟩

theorem classification_and_noop_exclusion_witness :
    grantLoop [{ keyPath := "/z", read := false, write := false }] (fun _ => true) =
      grantLoop [] (fun _ => true) ∧
    revokeLoop [{ keyPath := "/z", read := false, write := false }] (fun _ => true) =
      revokeLoop [] (fun _ => true) :=
  classification_and_noop_exclusion.2.2.2.2.2.2 [] []
    { keyPath := "/z", read := false, write := false } (fun _ => true) rfl rfl

/-! ## Claim C4 -/

theorem update_calls_split (s p : List permissionResourceModel) (ok : RoleOp → Bool) :
    ∃ gs, (roleResource.Update s p ok).1 = (revokeLoop s ok).1 ++ gs ∧
      (gs = [] ∨ gs = (grantLoop p ok).1) := by
  rcases hr : (revokeLoop s ok).2 with _ | q
  · exact ⟨(grantLoop p ok).1, by simp [roleResource.Update, hr], Or.inr rfl⟩
  · exact ⟨[], by simp [roleResource.Update, hr], Or.inl rfl⟩

/-- Claim C4: in every role update all revoke calls of the prior state come
before any grant call of the plan — the issued sequence is the revoke
loop's calls (all RevokeRoleKV) followed by the grant loop's calls
(all GrantRoleKV) — and in the concrete ReadOnly-to-WriteOnly
transition on /x the sequence is exactly Revoke(/x, Read) then
Grant(/x, Write). -/
theorem update_revokes_before_grants :
    (roleResource.Update [{ keyPath := "/x", read := true, write := false }]
        [{ keyPath := "/x", read := false, write := true }] (fun _ => true)).1 =
      [RoleOp.revokeRoleKV "/x" PermissionType.readPermission,
       RoleOp.grantRoleKV "/x" PermissionType.writePermission] ∧
    (∀ (s p : List permissionResourceModel) (ok : RoleOp → Bool),
      ∃ gs, (roleResource.Update s p ok).1 = (revokeLoop s ok).1 ++ gs ∧
        (gs = [] ∨ gs = (grantLoop p ok).1)) ∧
    (∀ (s : List permissionResourceModel) (ok : RoleOp → Bool),
      ∀ op ∈ (revokeLoop s ok).1, op.isGrant = false) ∧
    (∀ (p : List permissionResourceModel) (ok : RoleOp → Bool),
      ∀ op ∈ (grantLoop p ok).1, op.isGrant = true) := by
  refine ⟨by decide, update_calls_split, ?_, ?_⟩
  · intro s ok op hop
    obtain ⟨q, _, t, rfl, _⟩ := mem_revokeLoop_shape s ok op hop
    rfl
  · intro p ok op hop
    obtain ⟨q, _, t, rfl, _⟩ := mem_grantLoop_shape p ok op hop
    rfl

theorem update_revokes_before_grants_witness :
    (RoleOp.revokeRoleKV "/x" PermissionType.readPermission).isGrant = false :=
  update_revokes_before_grants.2.2.1
    [{ keyPath := "/x", read := true, write := false }] (fun _ => true) _ (by decide)

/-! ## Claim C5 -/

theorem update_allOk (s p : List permissionResourceModel) :
    roleResource.Update s p (fun _ => true) = (revokeOps s ++ grantOps p, none) := by
  simp [roleResource.Update, revokeLoop_allOk, grantLoop_allOk]

theorem mem_revokeOps {e : permissionResourceModel} {S : List permissionResourceModel}
    {t : PermissionType} (he : e ∈ S) (hc : classifyPermission e.read e.write = some t) :
    RoleOp.revokeRoleKV e.keyPath t ∈ revokeOps S :=
  List.mem_filterMap.mpr ⟨e, he, by rw [hc]; rfl⟩

theorem mem_grantOps {e : permissionResourceModel} {S : List permissionResourceModel}
    {t : PermissionType} (he : e ∈ S) (hc : classifyPermission e.read e.write = some t) :
    RoleOp.grantRoleKV e.keyPath t ∈ grantOps S :=
  List.mem_filterMap.mpr ⟨e, he, by rw [hc]; rfl⟩

/-- Claim C5: a role update whose prior state equals the desired plan is not
a no-op: when every call succeeds the issued sequence is exactly one
Revoke per classified entry followed by one Grant of the same path and
class, this sequence is a function of the input alone (re-running
yields the identical calls), and it is non-empty as soon as one entry
classifies to a real permission. -/
theorem update_prior_eq_desired (S : List permissionResourceModel) :
    (roleResource.Update S S (fun _ => true)).1 = revokeOps S ++ grantOps S ∧
    (roleResource.Update S S (fun _ => true)).2 = none ∧
    (∀ e ∈ S, ∀ t, classifyPermission e.read e.write = some t →
      RoleOp.revokeRoleKV e.keyPath t ∈ (roleResource.Update S S (fun _ => true)).1 ∧
      RoleOp.grantRoleKV e.keyPath t ∈ (roleResource.Update S S (fun _ => true)).1) ∧
    ((∃ e ∈ S, classifyPermission e.read e.write ≠ none) →
      (roleResource.Update S S (fun _ => true)).1 ≠ []) := by
  have hU := update_allOk S S
  refine ⟨by rw [hU], by rw [hU], ?_, ?_⟩
  · intro e he t hc
    rw [hU]
    exact ⟨List.mem_append_left _ (mem_revokeOps he hc),
           List.mem_append_right _ (mem_grantOps he hc)⟩
  · rintro ⟨e, he, hne⟩ hnil
    rcases hc : classifyPermission e.read e.write with _ | t
    · exact hne hc
    · rw [hU] at hnil
      have hnil' : revokeOps S ++ grantOps S = [] := hnil
      have hmem := List.mem_append_right (revokeOps S) (mem_grantOps he hc)
      rw [hnil'] at hmem
      cases hmem

theorem update_prior_eq_desired_witness :
    (roleResource.Update [{ keyPath := "/a", read := true, write := false }]
      [{ keyPath := "/a", read := true, write := false }] (fun _ => true)).1 ≠ [] :=
  (update_prior_eq_desired [{ keyPath := "/a", read := true, write := false }]).2.2.2
    ⟨{ keyPath := "/a", read := true, write := false }, by decide, by decide⟩

/-! ## Claim C6 -/

theorem grantLoop_calls_initial (perms : List permissionResourceModel) (ok : RoleOp → Bool) :
    ∃ rest, (grantLoop perms ok).1 ++ rest = grantOps perms := by
  induction perms with
  | nil => exact ⟨[], rfl⟩
  | cons e tl ih =>
    cases hc : classifyPermission e.read e.write with
    | none =>
      obtain ⟨r, hr⟩ := ih
      refine ⟨r, ?_⟩
      simp only [grantLoop, grantOps, List.filterMap_cons, hc, Option.map_none'] at hr ⊢
      exact hr
    | some t =>
      by_cases hok : ok (RoleOp.grantRoleKV e.keyPath t) = true
      · obtain ⟨r, hr⟩ := ih
        refine ⟨r, ?_⟩
        simp only [grantLoop, grantOps, List.filterMap_cons, hc, Option.map_some', hok, if_true,
          List.cons_append, List.cons.injEq, true_and] at hr ⊢
        exact hr
      · refine ⟨grantOps tl, ?_⟩
        simp [grantLoop, grantOps, List.filterMap_cons, hc, hok]

theorem revokeLoop_calls_initial (perms : List permissionResourceModel) (ok : RoleOp → Bool) :
    ∃ rest, (revokeLoop perms ok).1 ++ rest = revokeOps perms := by
  induction perms with
  | nil => exact ⟨[], rfl⟩
  | cons e tl ih =>
    cases hc : classifyPermission e.read e.write with
    | none =>
      obtain ⟨r, hr⟩ := ih
      refine ⟨r, ?_⟩
      simp only [revokeLoop, revokeOps, List.filterMap_cons, hc, Option.map_none'] at hr ⊢
      exact hr
    | some t =>
      by_cases hok : ok (RoleOp.revokeRoleKV e.keyPath t) = true
      · obtain ⟨r, hr⟩ := ih
        refine ⟨r, ?_⟩
        simp only [revokeLoop, revokeOps, List.filterMap_cons, hc, Option.map_some', hok, if_true,
          List.cons_append, List.cons.injEq, true_and] at hr ⊢
        exact hr
      · refine ⟨revokeOps tl, ?_⟩
        simp [revokeLoop, revokeOps, List.filterMap_cons, hc, hok]

theorem grantLoop_error_names_last (perms : List permissionResourceModel)
    (ok : RoleOp → Bool) (p : String) (h : (grantLoop perms ok).2 = some p) :
    ∃ t pre, (grantLoop perms ok).1 = pre ++ [RoleOp.grantRoleKV p t] ∧
      ok (RoleOp.grantRoleKV p t) = false := by
  induction perms with
  | nil => simp [grantLoop] at h
  | cons e tl ih =>
    cases hc : classifyPermission e.read e.write with
    | none =>
      simp only [grantLoop, hc] at h ⊢
      exact ih h
    | some t =>
      by_cases hok : ok (RoleOp.grantRoleKV e.keyPath t) = true
      · simp only [grantLoop, hc, hok, if_true] at h ⊢
        obtain ⟨t', pre, h1, h2⟩ := ih h
        exact ⟨t', RoleOp.grantRoleKV e.keyPath t :: pre, by rw [h1]; rfl, h2⟩
      · simp only [grantLoop, hc, if_neg hok] at h ⊢
        have hp : e.keyPath = p := by
          simpa using h
        subst hp
        refine ⟨t, [], rfl, ?_⟩
        cases hb : ok (RoleOp.grantRoleKV e.keyPath t)
        · rfl
        · exact absurd hb hok

theorem revokeLoop_error_names_last (perms : List permissionResourceModel)
    (ok : RoleOp → Bool) (p : String) (h : (revokeLoop perms ok).2 = some p) :
    ∃ t pre, (revokeLoop perms ok).1 = pre ++ [RoleOp.revokeRoleKV p t] ∧
      ok (RoleOp.revokeRoleKV p t) = false := by
  induction perms with
  | nil => simp [revokeLoop] at h
  | cons e tl ih =>
    cases hc : classifyPermission e.read e.write with
    | none =>
      simp only [revokeLoop, hc] at h ⊢
      exact ih h
    | some t =>
      by_cases hok : ok (RoleOp.revokeRoleKV e.keyPath t) = true
      · simp only [revokeLoop, hc, hok, if_true] at h ⊢
        obtain ⟨t', pre, h1, h2⟩ := ih h
        exact ⟨t', RoleOp.revokeRoleKV e.keyPath t :: pre, by rw [h1]; rfl, h2⟩
      · simp only [revokeLoop, hc, if_neg hok] at h ⊢
        have hp : e.keyPath = p := by
          simpa using h
        subst hp
        refine ⟨t, [], rfl, ?_⟩
        cases hb : ok (RoleOp.revokeRoleKV e.keyPath t)
        · rfl
        · exact absurd hb hok

theorem update_revoke_failure_stops (s pl : List permissionResourceModel)
    (ok : RoleOp → Bool) (p : String)
    (h : (roleResource.Update s pl ok).2 = some (Phase.revokePhase, p)) :
    (roleResource.Update s pl ok).1 = (revokeLoop s ok).1 := by
  rcases hr : (revokeLoop s ok).2 with _ | q
  · simp only [roleResource.Update, hr] at h
    rcases hg : (grantLoop pl ok).2 with _ | q2
    · rw [hg] at h
      simp at h
    · rw [hg] at h
      simp at h
  · simp [roleResource.Update, hr]

theorem update_revoke_error_source (s pl : List permissionResourceModel)
    (ok : RoleOp → Bool) (p : String)
    (h : (roleResource.Update s pl ok).2 = some (Phase.revokePhase, p)) :
    (revokeLoop s ok).2 = some p := by
  rcases hr : (revokeLoop s ok).2 with _ | q
  · simp only [roleResource.Update, hr] at h
    rcases hg : (grantLoop pl ok).2 with _ | q2
    · rw [hg] at h
      simp at h
    · rw [hg] at h
      simp at h
  · simp only [roleResource.Update, hr] at h
    simp only [Option.some.injEq, Prod.mk.injEq, true_and] at h
    rw [h]

/-- Claim C6: the first failing GrantRoleKV or RevokeRoleKV aborts the
remaining sequence: the calls a loop issues form an initial segment of
its full call list, a reported grant error names the key path of the
last (failing) grant call, a reported revoke error likewise names the
key path of the last (failing) revoke call with no later revoke
attempted, a revoke-phase failure in an update suppresses the whole
grant phase and leaves the issued calls ending at the failing revoke,
and in the concrete scenarios where the second of three grants
(respectively revokes) fails, the third is never issued and the error
names the second path. -/
theorem first_failure_aborts :
    (∀ (perms : List permissionResourceModel) (ok : RoleOp → Bool),
      (∃ rest, (grantLoop perms ok).1 ++ rest = grantOps perms) ∧
      (∃ rest, (revokeLoop perms ok).1 ++ rest = revokeOps perms)) ∧
    (∀ (perms : List permissionResourceModel) (ok : RoleOp → Bool) (p : String),
      (grantLoop perms ok).2 = some p →
      ∃ t pre, (grantLoop perms ok).1 = pre ++ [RoleOp.grantRoleKV p t] ∧
        ok (RoleOp.grantRoleKV p t) = false) ∧
    (∀ (perms : List permissionResourceModel) (ok : RoleOp → Bool) (p : String),
      (revokeLoop perms ok).2 = some p →
      ∃ t pre, (revokeLoop perms ok).1 = pre ++ [RoleOp.revokeRoleKV p t] ∧
        ok (RoleOp.revokeRoleKV p t) = false) ∧
    (∀ (s pl : List permissionResourceModel) (ok : RoleOp → Bool) (p : String),
      (roleResource.Update s pl ok).2 = some (Phase.revokePhase, p) →
      (roleResource.Update s pl ok).1 = (revokeLoop s ok).1 ∧
      ∃ t pre, (roleResource.Update s pl ok).1 = pre ++ [RoleOp.revokeRoleKV p t] ∧
        ok (RoleOp.revokeRoleKV p t) = false) ∧
    ((roleResource.Create
        [{ keyPath := "/a", read := true, write := false },
         { keyPath := "/b", read := true, write := false },
         { keyPath := "/c", read := true, write := false }] true
        (fun op => op.path != "/b")).1 =
      [RoleOp.grantRoleKV "/a" PermissionType.readPermission,
       RoleOp.grantRoleKV "/b" PermissionType.readPermission] ∧
     (roleResource.Create
        [{ keyPath := "/a", read := true, write := false },
         { keyPath := "/b", read := true, write := false },
         { keyPath := "/c", read := true, write := false }] true
        (fun op => op.path != "/b")).2 = some (CreateError.grantFailed "/b") ∧
     RoleOp.grantRoleKV "/c" PermissionType.readPermission ∉
       (roleResource.Create
        [{ keyPath := "/a", read := true, write := false },
         { keyPath := "/b", read := true, write := false },
         { keyPath := "/c", read := true, write := false }] true
        (fun op => op.path != "/b")).1) ∧
    ((roleResource.Update
        [{ keyPath := "/a", read := true, write := false },
         { keyPath := "/b", read := true, write := false },
         { keyPath := "/c", read := true, write := false }]
        [{ keyPath := "/d", read := true, write := false }]
        (fun op => op.path != "/b")).1 =
      [RoleOp.revokeRoleKV "/a" PermissionType.readPermission,
       RoleOp.revokeRoleKV "/b" PermissionType.readPermission] ∧
     (roleResource.Update
        [{ keyPath := "/a", read := true, write := false },
         { keyPath := "/b", read := true, write := false },
         { keyPath := "/c", read := true, write := false }]
        [{ keyPath := "/d", read := true, write := false }]
        (fun op => op.path != "/b")).2 = some (Phase.revokePhase, "/b") ∧
     RoleOp.revokeRoleKV "/c" PermissionType.readPermission ∉
       (roleResource.Update
        [{ keyPath := "/a", read := true, write := false },
         { keyPath := "/b", read := true, write := false },
         { keyPath := "/c", read := true, write := false }]
        [{ keyPath := "/d", read := true, write := false }]
        (fun op => op.path != "/b")).1 ∧
     RoleOp.grantRoleKV "/d" PermissionType.readPermission ∉
       (roleResource.Update
        [{ keyPath := "/a", read := true, write := false },
         { keyPath := "/b", read := true, write := false },
         { keyPath := "/c", read := true, write := false }]
        [{ keyPath := "/d", read := true, write := false }]
        (fun op => op.path != "/b")).1) := by
  refine ⟨?_, grantLoop_error_names_last, revokeLoop_error_names_last, ?_,
    ⟨by decide, by decide, by decide⟩, by decide, by decide, by decide, by decide⟩
  · intro perms ok
    exact ⟨grantLoop_calls_initial perms ok, revokeLoop_calls_initial perms ok⟩
  · intro s pl ok p h
    have h1 := update_revoke_failure_stops s pl ok p h
    obtain ⟨t, pre, h3, h4⟩ :=
      revokeLoop_error_names_last s ok p (update_revoke_error_source s pl ok p h)
    exact ⟨h1, t, pre, by rw [h1, h3], h4⟩

theorem first_failure_aborts_witness :
    ∃ t pre,
      (grantLoop [{ keyPath := "/b", read := true, write := false }]
        (fun op => op.path != "/b")).1 = pre ++ [RoleOp.grantRoleKV "/b" t] ∧
      (fun op : RoleOp => op.path != "/b") (RoleOp.grantRoleKV "/b" t) = false :=
  first_failure_aborts.2.1 [{ keyPath := "/b", read := true, write := false }]
    (fun op => op.path != "/b") "/b" (by decide)

/-! ## Claim C7 -/

theorem grantOps_cons_none {e : permissionResourceModel} {tl : List permissionResourceModel}
    (hc : classifyPermission e.read e.write = none) :
    grantOps (e :: tl) = grantOps tl := by
  simp [grantOps, List.filterMap_cons, hc]

theorem grantOps_cons_some {e : permissionResourceModel} {tl : List permissionResourceModel}
    {t : PermissionType} (hc : classifyPermission e.read e.write = some t) :
    grantOps (e :: tl) = RoleOp.grantRoleKV e.keyPath t :: grantOps tl := by
  simp [grantOps, List.filterMap_cons, hc]

theorem grantOps_length (plan : List permissionResourceModel) :
    (grantOps plan).length = (plan.filter fun e => e.read || e.write).length := by
  induction plan with
  | nil => rfl
  | cons e tl ih =>
    rcases hc : classifyPermission e.read e.write with _ | t
    · have hb : (e.read || e.write) = false := by
        revert hc
        unfold classifyPermission
        cases e.read <;> cases e.write <;> simp
      simp [grantOps_cons_none hc, List.filter_cons, hb, ih]
    · have hb : (e.read || e.write) = true := by
        revert hc
        unfold classifyPermission
        cases e.read <;> cases e.write <;> simp
      simp [grantOps_cons_some hc, List.filter_cons, hb, ih]

/-- Claim C7: role creation runs only the grant phase — every call issued by
the Create handler is a GrantRoleKV, with every call succeeding the
issued calls are exactly one grant per entry whose classification is
not a no-op, in the plan's deterministic order, and the concrete
two-entry creation issues Grant(/app/config, Read) then
Grant(/metrics, ReadWrite). -/
theorem create_grants_only :
    (∀ (plan : List permissionResourceModel) (addRoleOk : Bool) (ok : RoleOp → Bool),
      ∀ op ∈ (roleResource.Create plan addRoleOk ok).1, op.isGrant = true) ∧
    (∀ plan : List permissionResourceModel,
      roleResource.Create plan true (fun _ => true) = (grantOps plan, none)) ∧
    (∀ plan : List permissionResourceModel,
      (grantOps plan).length = (plan.filter fun e => e.read || e.write).length) ∧
    (roleResource.Create
      [{ keyPath := "/app/config", read := true, write := false },
       { keyPath := "/metrics", read := true, write := true }] true (fun _ => true)).1 =
      [RoleOp.grantRoleKV "/app/config" PermissionType.readPermission,
       RoleOp.grantRoleKV "/metrics" PermissionType.readWritePermission] := by
  refine ⟨?_, ?_, grantOps_length, by decide⟩
  · intro plan addRoleOk ok op hop
    cases addRoleOk with
    | false =>
      simp [roleResource.Create] at hop
    | true =>
      simp only [roleResource.Create, if_true] at hop
      obtain ⟨q, _, t, rfl, _⟩ := mem_grantLoop_shape plan ok op hop
      rfl
  · intro plan
    simp [roleResource.Create, grantLoop_allOk]

theorem create_grants_only_witness :
    (RoleOp.grantRoleKV "/a" PermissionType.readPermission).isGrant = true :=
  create_grants_only.1 [{ keyPath := "/a", read := true, write := false }] true
    (fun _ => true) _ (by decide)

/-! ## Claim C8 -/

/-- Claim C8, counterexample: a missing role (or key) during a read is not
treated as an empty observation — the read handlers report an error on
the not-found answer, contradicting the claim that no error is
reported. -/
theorem read_notfound_is_error_counterexample :
    roleResource.Read "myrole" (Except.error StoreErr.notFound) =
      Except.error ("myrole", StoreErr.notFound) ∧
    (roleResource.Read "myrole" (Except.error StoreErr.notFound)).isOk = false ∧
    KeyValueResource.Read { key := "/k", value := "v", modifiedIndex := 0 }
        (Except.error StoreErr.notFound) =
      Except.error ("/k", StoreErr.notFound) := by
  refine ⟨rfl, rfl, rfl⟩

/-- Claim C8, amended: every store error on a read, the not-found answer
included, is surfaced as an error diagnostic naming the entity; the
read handlers never convert absence into an empty or absent
observation. -/
theorem read_error_always_surfaced :
    (∀ (name : String) (e : StoreErr),
      roleResource.Read name (Except.error e) = Except.error (name, e)) ∧
    (∀ (st : KeyValueResourceModel) (e : StoreErr),
      KeyValueResource.Read st (Except.error e) = Except.error (st.key, e)) :=
  ⟨fun _ _ => rfl, fun _ _ => rfl⟩

/-! ## Claim C9 -/

/-- Claim C9: after every successful user read the password of the resulting
state is the password held in the prior local state, and the roles
field is exactly the role list the store reports, in the store's
order. -/
theorem user_read_keeps_password (state : userResourceModel) (rs : List String) :
    userResource.Read state (Except.ok rs) =
      Except.ok { username := state.username, password := state.password, roles := rs } :=
  rfl

/-! ## Claim C10 -/

theorem grantUserStep_calls (u : String) (declared : List String) (ok : UserCall → Bool) :
    (grantUserStep u declared ok).1 = [] ∨
    (grantUserStep u declared ok).1 = [UserCall.grantUser (declared.filter fun r => r != "")] := by
  unfold grantUserStep
  split
  · split
    · split
      · exact Or.inr rfl
      · exact Or.inr rfl
    · exact Or.inl rfl
  · exact Or.inl rfl

theorem revokeUserStep_calls (u : String) (declared : List String) (ok : UserCall → Bool) :
    (revokeUserStep u declared ok).1 = [] ∨
    (revokeUserStep u declared ok).1 = [UserCall.revokeUser (declared.filter fun r => r != "")] := by
  unfold revokeUserStep
  split
  · split
    · split
      · exact Or.inr rfl
      · exact Or.inr rfl
    · exact Or.inl rfl
  · exact Or.inl rfl

theorem changePasswordStep_calls (u old new : String) (ok : UserCall → Bool) :
    (changePasswordStep u old new ok).1 = [] ∨
    (changePasswordStep u old new ok).1 = [UserCall.changePassword new] := by
  unfold changePasswordStep
  split
  · split
    · exact Or.inr rfl
    · exact Or.inr rfl
  · exact Or.inl rfl

theorem filter_empty_of_all_empty {declared : List String}
    (h : ∀ r ∈ declared, r = "") : (declared.filter fun r => r != "") = [] := by
  apply List.filter_eq_nil_iff.mpr
  intro a ha
  simp [h a ha]

theorem grantUserStep_all_empty (u : String) (declared : List String) (ok : UserCall → Bool)
    (h : ∀ r ∈ declared, r = "") : (grantUserStep u declared ok).1 = [] := by
  have hf := filter_empty_of_all_empty h
  unfold grantUserStep
  rw [hf]
  split
  · simp
  · rfl

theorem revokeUserStep_all_empty (u : String) (declared : List String) (ok : UserCall → Bool)
    (h : ∀ r ∈ declared, r = "") : (revokeUserStep u declared ok).1 = [] := by
  have hf := filter_empty_of_all_empty h
  unfold revokeUserStep
  rw [hf]
  split
  · simp
  · rfl

theorem userUpdate_calls_parts (state plan : userResourceModel) (ok : UserCall → Bool) :
    ∀ c ∈ (userResource.Update state plan ok).1,
      c ∈ (changePasswordStep plan.username state.password plan.password ok).1 ∨
      c ∈ (revokeUserStep plan.username state.roles ok).1 ∨
      c ∈ (grantUserStep plan.username plan.roles ok).1 := by
  intro c hc
  unfold userResource.Update at hc
  rcases hpw : (changePasswordStep plan.username state.password plan.password ok).2 with _ | e1
  · rw [hpw] at hc
    rcases hrv : (revokeUserStep plan.username state.roles ok).2 with _ | e2
    · rw [hrv] at hc
      simp only [List.append_assoc, List.mem_append] at hc
      rcases hc with h | h | h
      · exact Or.inl h
      · exact Or.inr (Or.inl h)
      · exact Or.inr (Or.inr h)
    · rw [hrv] at hc
      simp only [List.mem_append] at hc
      rcases hc with h | h
      · exact Or.inl h
      · exact Or.inr (Or.inl h)
  · rw [hpw] at hc
    exact Or.inl hc

/-- Claim C10: the user Create and Update handlers drop empty role names
before calling the store — every GrantUser call carries exactly the
non-empty names of the plan's role list in declared order, every
RevokeUser call exactly the non-empty names of the prior state's list,
and when every declared name is empty (or the list is empty) no
GrantUser or RevokeUser call is made at all. -/
theorem user_role_filtering :
    (∀ (plan : userResourceModel) (addUserOk : Bool) (ok : UserCall → Bool)
       (rs : List String), UserCall.grantUser rs ∈ (userResource.Create plan addUserOk ok).1 →
       rs = plan.roles.filter fun r => r != "") ∧
    (∀ (plan : userResourceModel) (addUserOk : Bool) (ok : UserCall → Bool),
       (∀ r ∈ plan.roles, r = "") → (userResource.Create plan addUserOk ok).1 = []) ∧
    (∀ (state plan : userResourceModel) (ok : UserCall → Bool) (rs : List String),
       UserCall.grantUser rs ∈ (userResource.Update state plan ok).1 →
       rs = plan.roles.filter fun r => r != "") ∧
    (∀ (state plan : userResourceModel) (ok : UserCall → Bool) (rs : List String),
       UserCall.revokeUser rs ∈ (userResource.Update state plan ok).1 →
       rs = state.roles.filter fun r => r != "") ∧
    (∀ (state plan : userResourceModel) (ok : UserCall → Bool),
       (∀ r ∈ plan.roles, r = "") → (∀ r ∈ state.roles, r = "") →
       ∀ rs : List String,
         UserCall.grantUser rs ∉ (userResource.Update state plan ok).1 ∧
         UserCall.revokeUser rs ∉ (userResource.Update state plan ok).1) := by
  have hcreate : ∀ (plan : userResourceModel) (addUserOk : Bool) (ok : UserCall → Bool)
      (rs : List String), UserCall.grantUser rs ∈ (userResource.Create plan addUserOk ok).1 →
      rs = plan.roles.filter fun r => r != "" := by
    intro plan addUserOk ok rs h
    cases addUserOk with
    | false => simp [userResource.Create] at h
    | true =>
      simp only [userResource.Create, if_true] at h
      rcases grantUserStep_calls plan.username plan.roles ok with hg | hg
      · rw [hg] at h
        cases h
      · rw [hg] at h
        rw [List.mem_singleton] at h
        injection h
  refine ⟨hcreate, ?_, ?_, ?_, ?_⟩
  · intro plan addUserOk ok h
    cases addUserOk with
    | false => simp [userResource.Create]
    | true =>
      simp only [userResource.Create, if_true]
      exact grantUserStep_all_empty plan.username plan.roles ok h
  · intro state plan ok rs h
    rcases userUpdate_calls_parts state plan ok _ h with h1 | h1 | h1
    · rcases changePasswordStep_calls plan.username state.password plan.password ok with hg | hg <;>
        rw [hg] at h1
      · cases h1
      · rw [List.mem_singleton] at h1
        cases h1
    · rcases revokeUserStep_calls plan.username state.roles ok with hg | hg <;> rw [hg] at h1
      · cases h1
      · rw [List.mem_singleton] at h1
        cases h1
    · rcases grantUserStep_calls plan.username plan.roles ok with hg | hg <;> rw [hg] at h1
      · cases h1
      · rw [List.mem_singleton] at h1
        injection h1
  · intro state plan ok rs h
    rcases userUpdate_calls_parts state plan ok _ h with h1 | h1 | h1
    · rcases changePasswordStep_calls plan.username state.password plan.password ok with hg | hg <;>
        rw [hg] at h1
      · cases h1
      · rw [List.mem_singleton] at h1
        cases h1
    · rcases revokeUserStep_calls plan.username state.roles ok with hg | hg <;> rw [hg] at h1
      · cases h1
      · rw [List.mem_singleton] at h1
        injection h1
    · rcases grantUserStep_calls plan.username plan.roles ok with hg | hg <;> rw [hg] at h1
      · cases h1
      · rw [List.mem_singleton] at h1
        cases h1
  · intro state plan ok hplan hstate rs
    constructor
    · intro h
      rcases userUpdate_calls_parts state plan ok _ h with h1 | h1 | h1
      · rcases changePasswordStep_calls plan.username state.password plan.password ok with hg | hg <;>
          rw [hg] at h1
        · cases h1
        · rw [List.mem_singleton] at h1
          cases h1
      · rw [revokeUserStep_all_empty plan.username state.roles ok hstate] at h1
        cases h1
      · rw [grantUserStep_all_empty plan.username plan.roles ok hplan] at h1
        cases h1
    · intro h
      rcases userUpdate_calls_parts state plan ok _ h with h1 | h1 | h1
      · rcases changePasswordStep_calls plan.username state.password plan.password ok with hg | hg <;>
          rw [hg] at h1
        · cases h1
        · rw [List.mem_singleton] at h1
          cases h1
      · rw [revokeUserStep_all_empty plan.username state.roles ok hstate] at h1
        cases h1
      · rw [grantUserStep_all_empty plan.username plan.roles ok hplan] at h1
        cases h1

theorem user_role_filtering_witness :
    (userResource.Create { username := "u", password := "pw", roles := ["", ""] } true
      (fun _ => true)).1 = [] :=
  user_role_filtering.2.1 { username := "u", password := "pw", roles := ["", ""] } true
    (fun _ => true) (by decide)
